import Mathlib

/-!
Verification of the Spec-Conformance and Variability Engine of the
dashboard repository (single source file src/app.py).

The embedding is shallow: each piece of Python/pandas logic is translated
into an executable Lean definition over explicit data.

Modelling conventions, used consistently below:
* Python strings are modelled as List Char (a Python str compares and
  splits by code points, exactly as List Char does here).
* A pandas cell that may be NaN or absent is modelled as Option Rat:
  none stands for NaN/absent, some q for a finite numeric value.
  Pandas comparisons involving NaN yield False; the helper ltB below
  reproduces that.
* Numeric magnitudes are modelled as rationals.  The source manipulates
  IEEE doubles; every literal and every arithmetic step the claims
  exercise (decimal parsing, interval comparisons, means and variances
  of small decimals) is exact in double precision, so the rational
  model agrees with the code on the modelled inputs.
* COIL_NO values are identifiers carrying a total order (the code sorts
  by them and counts distinct ones); they are modelled as naturals.
-/

namespace DashApp

/-! ### Tolerance-range parsing, src/app.py lines 105-112

    def split_std(x):
        if isinstance(x, str) and "~" in x:
            try:
                lo, hi = x.split("~")
                return pd.Series([float(lo), float(hi)])
            except:
                return pd.Series([np.nan, np.nan])
        return pd.Series([np.nan, np.nan])
-/

/-- The six ASCII whitespace characters Python strips around a float
literal. -/
def isPySpace (c : Char) : Bool :=
  c = ' ' || c = '\t' || c = '\n' || c = '\r' || c = '\x0b' || c = '\x0c'

/-- Decimal digit test, Char code points between '0' and '9'. -/
def isDigitC (c : Char) : Bool :=
  '0' ≤ c && c ≤ '9'

/-- Value of a digit string read in base 10. -/
def digitsVal (l : List Char) : ℕ :=
  l.foldl (fun a c => 10 * a + (c.toNat - ('0').toNat)) 0

/-- Model of Python float(s) on a stripped character list: optional
sign, integer digits, optional point and fraction digits (at least one
digit overall), optional exponent part.  This is the finite plain
decimal fragment of the Python conversion; the inf/nan words and
underscore separators Python also accepts never occur in tolerance
texts and are outside the modelled input space. -/
def pyFloatCore (cs : List Char) : Option ℚ :=
  let neg : Bool := cs.head? = some '-'
  let cs1 : List Char :=
    if cs.head? = some '-' || cs.head? = some '+' then cs.tail else cs
  let ip := cs1.takeWhile isDigitC
  let cs2 := cs1.dropWhile isDigitC
  let fp := if cs2.head? = some '.' then cs2.tail.takeWhile isDigitC else []
  let cs3 := if cs2.head? = some '.' then cs2.tail.dropWhile isDigitC else cs2
  if ip.isEmpty && fp.isEmpty then none
  else
    let sgn : ℤ := if neg then -1 else 1
    let mant : ℤ := sgn * (digitsVal (ip ++ fp) : ℤ)
    if cs3.isEmpty then some (mkRat mant (10 ^ fp.length))
    else if cs3.head? = some 'e' || cs3.head? = some 'E' then
      let r := cs3.tail
      let eneg : Bool := r.head? = some '-'
      let r1 : List Char :=
        if r.head? = some '-' || r.head? = some '+' then r.tail else r
      let ed := r1.takeWhile isDigitC
      if ed.isEmpty || !(r1.dropWhile isDigitC).isEmpty then none
      else if eneg then some (mkRat mant (10 ^ (fp.length + digitsVal ed)))
      else some (mkRat (mant * (10 : ℤ) ^ digitsVal ed) (10 ^ fp.length))
    else none

/-- Model of Python float(s): strip surrounding whitespace, then parse. -/
def pyFloat (s : List Char) : Option ℚ :=
  pyFloatCore (((s.dropWhile isPySpace).reverse.dropWhile isPySpace).reverse)

/-- Model of Python s.split with separator tilde: the pieces between
occurrences of the separator, in order, empty pieces kept. -/
def splitTilde : List Char → List (List Char)
  | [] => [[]]
  | c :: cs =>
    if c = '~' then [] :: splitTilde cs
    else
      match splitTilde cs with
      | [] => [[c]]
      | p :: ps => (c :: p) :: ps

/-- Model of split_std (src/app.py lines 105-112).  The argument is
none when the cell is absent or not a string (the isinstance guard);
the result components are none where the code returns np.nan.  The
try/except converts any failure of the two-way unpack or of either
float conversion into the NaN pair. -/
def split_std (x : Option (List Char)) : Option ℚ × Option ℚ :=
  match x with
  | none => (none, none)
  | some s =>
    if '~' ∈ s then
      match splitTilde s with
      | [lo, hi] =>
        match pyFloat lo, pyFloat hi with
        | some l, some h => (some l, some h)
        | _, _ => (none, none)
      | _ => (none, none)
    else (none, none)

/-! ### Per-group QA strict logic, src/app.py lines 174-195

    sub = df[ ...same Product_Spec, Material, Top_Coatmass, Order_Gauge...
        ].copy().sort_values("COIL_NO").reset_index(drop=True)
    lo, hi = sub[["Std_Min","Std_Max"]].iloc[0]
    sub["NG_LAB"]  = (sub["Hardness_LAB"]  < lo) | (sub["Hardness_LAB"]  > hi)
    sub["NG_LINE"] = (sub["Hardness_LINE"] < lo) | (sub["Hardness_LINE"] > hi)
    sub["COIL_NG"] = sub["NG_LAB"] | sub["NG_LINE"]
    n_out = sub[sub["COIL_NG"]]["COIL_NO"].nunique()
    qa_result = "FAIL" if n_out > 0 else "PASS"
-/

/-- One row of the per-group frame sub, restricted to the fields the QA
logic reads: the coil identifier, the two hardness channels, and the
parsed tolerance bounds produced by split_std. -/
structure Record where
  coilNo : ℕ
  hLab : Option ℚ
  hLine : Option ℚ
  stdMin : Option ℚ
  stdMax : Option ℚ
deriving DecidableEq, Repr

/-- Pandas comparison x < y on possibly-NaN cells: any comparison
involving NaN is False. -/
def ltB (x y : Option ℚ) : Bool :=
  match x, y with
  | some a, some b => decide (a < b)
  | _, _ => false

/-- NG_LAB of one row (line 184): Hardness_LAB < lo or Hardness_LAB > hi,
with pandas NaN semantics. -/
def NG_LAB (lo hi : Option ℚ) (r : Record) : Bool :=
  ltB r.hLab lo || ltB hi r.hLab

/-- NG_LINE of one row (line 185). -/
def NG_LINE (lo hi : Option ℚ) (r : Record) : Bool :=
  ltB r.hLine lo || ltB hi r.hLine

/-- COIL_NG of one row (line 186). -/
def COIL_NG (lo hi : Option ℚ) (r : Record) : Bool :=
  NG_LAB lo hi r || NG_LINE lo hi r

/-- Sort order of sort_values on the COIL_NO column. -/
def coilLe (a b : Record) : Prop :=
  a.coilNo ≤ b.coilNo

instance : DecidableRel coilLe :=
  fun a b => Nat.decLe a.coilNo b.coilNo

/-- The group frame after sort_values on COIL_NO (line 179).  Pandas
leaves the relative order of equal coil numbers unspecified; the model
fixes a stable insertion sort, which the claims do not distinguish. -/
def sortByCoil (g : List Record) : List Record :=
  List.insertionSort coilLe g

/-- The pair (lo, hi) read by iloc from the first row of the sorted
group (line 181).  The main loop only reaches this line for groups with
at least 30 coils; the empty case is given the NaN pair so the model
stays total. -/
def firstBounds (g : List Record) : Option ℚ × Option ℚ :=
  match sortByCoil g with
  | [] => (none, none)
  | r :: _ => (r.stdMin, r.stdMax)

/-- A row of sub after the three flag columns have been assigned
(lines 184-186). -/
structure Flagged where
  row : Record
  ngLab : Bool
  ngLine : Bool
  coilNG : Bool
deriving DecidableEq, Repr

/-- The group frame sub with its NG flag columns, every row classified
against the bounds of the first sorted row. -/
def subFlags (g : List Record) : List Flagged :=
  let lo := (firstBounds g).1
  let hi := (firstBounds g).2
  (sortByCoil g).map
    (fun r => ⟨r, NG_LAB lo hi r, NG_LINE lo hi r, COIL_NG lo hi r⟩)

/-- n_out (line 188): the number of distinct COIL_NO values among the
rows flagged COIL_NG. -/
def nOut (g : List Record) : ℕ :=
  ((((subFlags g).filter (fun fr => fr.coilNG)).map
    (fun fr => fr.row.coilNo)).dedup).length

/-- qa_result (line 189): FAIL when n_out is positive, else PASS. -/
def qa_result (g : List Record) : String :=
  if nOut g > 0 then "FAIL" else "PASS"

/-! ### View-level measurement filtering, src/app.py lines 201-232 and 282-290

    View 1 (data table) displays sub itself, every row (line 217).
    Views 2 and 3 filter each channel:
        lab_df  = sub[sub["Hardness_LAB"]  > 0]
        line_df = sub[sub["Hardness_LINE"] > 0]
    and the distribution statistics are computed on the filtered frames:
        mu_lab = lab_df["Hardness_LAB"].mean(); std_lab = ....std()
-/

/-- The boolean column Hardness_LAB > 0 of one row: NaN compares False,
so a row passes exactly when the value is present and positive. -/
def plotLabB (r : Record) : Bool :=
  ltB (some 0) r.hLab

/-- The boolean column Hardness_LINE > 0 of one row. -/
def plotLineB (r : Record) : Bool :=
  ltB (some 0) r.hLine

/-- lab_df (lines 228 and 282): the group rows whose LAB hardness is
strictly positive. -/
def lab_df (g : List Record) : List Record :=
  (sortByCoil g).filter plotLabB

/-- line_df (lines 229 and 283). -/
def line_df (g : List Record) : List Record :=
  (sortByCoil g).filter plotLineB

/-- The rows view 1 displays (line 217): all of sub, zeros included. -/
def dataTableRows (g : List Record) : List Record :=
  sortByCoil g

/-- The LAB values feeding the trend plot, the histogram and the
statistics: the Hardness_LAB column of lab_df. -/
def labVals (g : List Record) : List ℚ :=
  (lab_df g).filterMap (fun r => r.hLab)

/-- The LINE values feeding charts and statistics. -/
def lineVals (g : List Record) : List ℚ :=
  (line_df g).filterMap (fun r => r.hLine)

/-! ### Distribution statistics and normal overlay, src/app.py lines 286-340

    mu_lab  = lab_df["Hardness_LAB"].mean()
    std_lab = lab_df["Hardness_LAB"].std()
    ...
    if std_lab > 0:
        x_lab = np.linspace(mu_lab - 3*std_lab, mu_lab + 3*std_lab, 400)
        pdf_lab = (1/(std_lab*np.sqrt(2*np.pi))) * np.exp(...)

    Pandas .std() is the sample standard deviation with denominator
    n - 1 and is NaN for fewer than two values; a NaN guard compares
    False, so the overlay branch runs exactly when the variance is a
    number and strictly positive.  The model tracks the squared
    deviation, sampleVar: std_lab > 0 iff sampleVar is some v with
    0 < v, and the density denominator std_lab is nonzero iff v is. -/

/-- Mean of a list of values (the pandas mean of the nonempty filtered
column). -/
def mean (xs : List ℚ) : ℚ :=
  xs.sum / (xs.length : ℚ)

/-- Sample variance with denominator n - 1 (the square of pandas .std);
none models the NaN pandas returns for fewer than two values. -/
def sampleVar (xs : List ℚ) : Option ℚ :=
  if 2 ≤ xs.length then
    some (((xs.map (fun x => (x - mean xs) ^ 2)).sum) / ((xs.length : ℚ) - 1))
  else none

/-- The LAB normal-curve overlay (lines 313-325): present exactly when
the guard std_lab > 0 holds, and then carrying the fitted mean and
squared deviation the density is built from; none when the guard fails,
in which case the curve is simply not drawn. -/
def overlayLab (g : List Record) : Option (ℚ × ℚ) :=
  match sampleVar (labVals g) with
  | some v => if 0 < v then some (mean (labVals g), v) else none
  | none => none

/-- The LINE normal-curve overlay (lines 328-340). -/
def overlayLine (g : List Record) : Option (ℚ × ℚ) :=
  match sampleVar (lineVals g) with
  | some v => if 0 < v then some (mean (lineVals g), v) else none
  | none => none

/-! ### Group gating and presentation order, src/app.py lines 150-167

    GROUP_COLS = ["Product_Spec","Material","Metallic_Type","Top_Coatmass","Order_Gauge"]
    count_df = df.groupby(GROUP_COLS).agg(N_Coils=("COIL_NO","nunique")).reset_index()
    valid_conditions = count_df[count_df["N_Coils"] >= 30]
    if valid_conditions.empty: st.warning(...); st.stop()
    for _, cond in valid_conditions.iterrows(): ...

    Every view mode (data table, trend, distribution) lives inside this
    one loop, so the groups any view can show are exactly the rows of
    valid_conditions, in their order.  Pandas groupby with the default
    sort=True lists the distinct key tuples in ascending lexicographic
    order of the key columns.
-/

/-- The grouping key tuple, ordered lexicographically field by field in
GROUP_COLS order, as pandas sorts it. -/
abbrev GroupKey :=
  Lex (List Char × Lex (List Char × Lex (List Char × Lex (ℚ × ℚ))))

/-- One row of df as the grouping step sees it: the five key columns
and the coil identifier. -/
structure KRow where
  productSpec : List Char
  material : List Char
  metallicType : List Char
  topCoatmass : ℚ
  orderGauge : ℚ
  coilNo : ℕ
deriving DecidableEq

/-- The key tuple of a row. -/
def groupKey (r : KRow) : GroupKey :=
  toLex (r.productSpec, toLex (r.material,
    toLex (r.metallicType, toLex (r.topCoatmass, r.orderGauge))))

/-- N_Coils of one key: the number of distinct COIL_NO values among the
rows carrying that key (nunique, line 154). -/
def nCoils (df : List KRow) (k : GroupKey) : ℕ :=
  (((df.filter (fun r => decide (groupKey r = k))).map
    (fun r => r.coilNo)).dedup).length

/-- The key tuples of count_df in presentation order: the distinct keys
of df sorted ascending (groupby sort=True, line 153). -/
def countKeys (df : List KRow) : List GroupKey :=
  List.insertionSort (fun a b => a ≤ b) (df.map groupKey).dedup

/-- The group keys of valid_conditions (line 158), which is also the
sequence of groups the main loop presents, in order, in every view
mode. -/
def valid_conditions (df : List KRow) : List GroupKey :=
  (countKeys df).filter (fun k => decide (30 ≤ nCoils df k))

/-- Modelled from the spec: the presentation order the ordering clause
of the spec describes, namely the qualifying groups sorted descending
by NumCoils with ties broken by the ascending natural order of the key
tuple.  Stated for comparison with valid_conditions, the order the code
actually produces. -/
def specClaimedLe (df : List KRow) (k1 k2 : GroupKey) : Prop :=
  nCoils df k2 < nCoils df k1 ∨ (nCoils df k1 = nCoils df k2 ∧ k1 ≤ k2)

instance (df : List KRow) : DecidableRel (specClaimedLe df) :=
  fun k1 k2 => by unfold specClaimedLe; infer_instance

/-- Modelled from the spec: the full claimed presentation sequence. -/
def specClaimedOrder (df : List KRow) : List GroupKey :=
  List.insertionSort (specClaimedLe df)
    ((df.map groupKey).dedup.filter (fun k => decide (30 ≤ nCoils df k)))

/-! ### The raw table and what the script writes into it, src/app.py lines 42-121

    raw = load_data(DATA_URL)                      # cached fetch
    ... metal_col = first column whose upper case contains METALLIC and COATING
    raw["Metallic_Type"] = raw[metal_col]          # line 65, writes into raw
    df = raw.rename(columns={...})                 # line 86, a new frame
    df[["Std_Min","Std_Max"]] = df["Std_Range_Text"].apply(split_std)
    df.drop(columns=["Std_Range_Text"], inplace=True)
    for c in [...]: df[c] = pd.to_numeric(df[c], errors="coerce")

    st.cache_data hands each run a fresh copy of the fetched frame, so
    writes to raw stay in the run; rename returns a new frame, and each
    group takes .copy() before the NG columns are assigned, so df and
    sub writes never reach raw.  The model makes each table explicit
    and chains the steps, so what is written where is visible.
-/

/-- One cell of the raw spreadsheet: a string, a number, or NaN. -/
inductive Cell where
  | cstr (s : List Char)
  | cnum (q : ℚ)
  | cna
deriving DecidableEq, Repr

/-- A data frame: named columns and rows aligned with them. -/
structure Table where
  cols : List (List Char)
  rows : List (List Cell)
deriving DecidableEq, Repr

/-- Uppercase of a column name (str.upper). -/
def upperChars (s : List Char) : List Char :=
  s.map Char.toUpper

/-- Prefix test on character lists. -/
def isPrefixB : List Char → List Char → Bool
  | [], _ => true
  | _ :: _, [] => false
  | a :: as, b :: bs => a = b && isPrefixB as bs

/-- The Python substring test needle in hay. -/
def containsSub (needle hay : List Char) : Bool :=
  match hay with
  | [] => needle.isEmpty
  | _ :: t => isPrefixB needle hay || containsSub needle t

/-- The metal-column scan of lines 55-59: the first column whose
uppercase name contains both METALLIC and COATING. -/
def findMetalCol (t : Table) : Option (List Char) :=
  t.cols.find? (fun c =>
    containsSub (("METALLIC").data) (upperChars c) &&
    containsSub (("COATING").data) (upperChars c))

/-- The cell of a row at the position of a named column; NaN when the
column is missing. -/
def cellAt (t : Table) (c : List Char) (row : List Cell) : Cell :=
  match t.cols.indexOf? c with
  | some j => row.getD j Cell.cna
  | none => Cell.cna

/-- Column assignment t[c] = f(row): overwrite the column in place when
the name exists, else append it on the right, as pandas does. -/
def assignCol (t : Table) (c : List Char) (f : List Cell → Cell) : Table :=
  match t.cols.indexOf? c with
  | some j => ⟨t.cols, t.rows.map (fun row => row.set j (f row))⟩
  | none => ⟨t.cols ++ [c], t.rows.map (fun row => row ++ [f row])⟩

/-- The write of line 65: raw["Metallic_Type"] = raw[metal_col].  When
no metal column exists the script stops at line 63 and the table is
left as loaded. -/
def metallicStep (t : Table) : Table :=
  match findMetalCol t with
  | some c => assignCol t (("Metallic_Type").data) (fun row => cellAt t c row)
  | none => t

/-- The raw table for the rest of the run: line 65 is the only
statement of the script whose target is raw, so this is its final
state. -/
def rawFinal (raw0 : Table) : Table :=
  metallicStep raw0

/-- The column_mapping of lines 70-84, source name to canonical name. -/
def columnMapping : List (List Char × List Char) :=
  [(("PRODUCT SPECIFICATION CODE").data, ("Product_Spec").data),
   (("HR STEEL GRADE").data, ("Material").data),
   (("Claasify material").data, ("Rolling_Type").data),
   (("TOP COATMASS").data, ("Top_Coatmass").data),
   (("ORDER GAUGE").data, ("Order_Gauge").data),
   (("COIL NO").data, ("COIL_NO").data),
   (("QUALITY_CODE").data, ("Quality_Code").data),
   (("Standard Hardness").data, ("Std_Range_Text").data),
   (("HARDNESS 冶金").data, ("Hardness_LAB").data),
   (("HARDNESS 鍍鋅線 C").data, ("Hardness_LINE").data),
   (("TENSILE_YIELD").data, ("YS").data),
   (("TENSILE_TENSILE").data, ("TS").data),
   (("TENSILE_ELONG").data, ("EL").data)]

/-- df = raw.rename(columns=...) (line 86): a new frame with renamed
columns; the original is not touched. -/
def renameStep (t : Table) : Table :=
  ⟨t.cols.map (fun c =>
      match columnMapping.lookup c with
      | some v => v
      | none => c),
    t.rows⟩

/-- The string content of a cell, none for numbers and NaN: the
isinstance(x, str) view split_std takes of its argument. -/
def cellToOptStr : Cell → Option (List Char)
  | Cell.cstr s => some s
  | _ => none

/-- A parsed bound as a cell. -/
def qcell : Option ℚ → Cell
  | some q => Cell.cnum q
  | none => Cell.cna

/-- Drop a named column (line 115); identity when the name is absent
(the script never reaches that case: line 97 has checked the schema). -/
def dropCol (t : Table) (c : List Char) : Table :=
  match t.cols.indexOf? c with
  | some j => ⟨t.cols.eraseIdx j, t.rows.map (fun row => row.eraseIdx j)⟩
  | none => t

/-- Lines 114-115: assign Std_Min and Std_Max from split_std applied to
the Std_Range_Text column, then drop the text column. -/
def stdSplitStep (t : Table) : Table :=
  let t1 := assignCol t (("Std_Min").data)
    (fun row => qcell (split_std (cellToOptStr (cellAt t (("Std_Range_Text").data) row))).1)
  let t2 := assignCol t1 (("Std_Max").data)
    (fun row => qcell (split_std (cellToOptStr (cellAt t (("Std_Range_Text").data) row))).2)
  dropCol t2 (("Std_Range_Text").data)

/-- pd.to_numeric(x, errors="coerce") on one cell: numbers pass,
numeric strings are parsed, everything else becomes NaN. -/
def coerceNumeric : Cell → Cell
  | Cell.cnum q => Cell.cnum q
  | Cell.cstr s =>
    match pyFloat s with
    | some q => Cell.cnum q
    | none => Cell.cna
  | Cell.cna => Cell.cna

/-- Lines 120-121: force the five measured columns numeric, in df. -/
def numericStep (t : Table) : Table :=
  [("Hardness_LAB").data, ("Hardness_LINE").data,
   ("YS").data, ("TS").data, ("EL").data].foldl
    (fun acc c => assignCol acc c (fun row => coerceNumeric (cellAt acc c row)))
    t

/-- The derived frame df after lines 86-121, computed from the raw
table, never written back into it. -/
def dfFinal (raw0 : Table) : Table :=
  numericStep (stdSplitStep (renameStep (rawFinal raw0)))

/-! ### Helper lemmas on the QA pipeline -/

theorem ltB_none_right (x : Option ℚ) : ltB x none = false := by
  cases x <;> rfl

theorem ltB_none_left (y : Option ℚ) : ltB none y = false := by
  cases y <;> rfl

theorem nOut_pos_iff (g : List Record) :
    0 < nOut g ↔ ∃ fr ∈ subFlags g, fr.coilNG = true := by
  unfold nOut
  rw [List.length_pos, Ne, List.dedup_eq_nil, List.map_eq_nil_iff,
    List.filter_eq_nil_iff]
  push_neg
  simp

/-- C1.  For every group, the strict verdict is FAIL exactly when the
number of distinct coil identifiers carrying a COIL_NG flag is
positive, and PASS otherwise; a flagged coil exists exactly when the
count is positive, and the empty group (zero qualifying coils) is PASS
vacuously. -/
theorem c1_strict_group_verdict (g : List Record) :
    (qa_result g = "FAIL" ↔ 0 < nOut g) ∧
    (qa_result g = "PASS" ↔ nOut g = 0) ∧
    (0 < nOut g ↔ ∃ fr ∈ subFlags g, fr.coilNG = true) ∧
    qa_result [] = "PASS" := by
  refine ⟨?_, ?_, nOut_pos_iff g, by decide⟩ <;>
  · unfold qa_result
    rcases Nat.eq_zero_or_pos (nOut g) with h | h
    · rw [h]
      simp
    · rw [if_pos h]
      simp [h, Nat.pos_iff_ne_zero.mp h]

/-- C2 (amended).  With a valid parsed range (some a, some b): a
present LAB hardness x gives NG_LAB exactly when x < a or x > b, an
absent hardness never raises a flag, symmetrically for LINE; and a
zero-valued hardness is compared like any other value, so it does
contribute an NG flag whenever zero is below the lower bound. -/
theorem c2_record_ng_flags (a b x : ℚ) (r : Record) :
    (r.hLab = some x →
      NG_LAB (some a) (some b) r = (decide (x < a) || decide (b < x))) ∧
    (r.hLab = none → ∀ lo hi, NG_LAB lo hi r = false) ∧
    (r.hLine = some x →
      NG_LINE (some a) (some b) r = (decide (x < a) || decide (b < x))) ∧
    (r.hLine = none → ∀ lo hi, NG_LINE lo hi r = false) ∧
    (r.hLab = some 0 → 0 < a → NG_LAB (some a) (some b) r = true) := by
  refine ⟨fun h => ?_, fun h lo hi => ?_, fun h => ?_, fun h lo hi => ?_,
    fun h ha => ?_⟩
  · simp [NG_LAB, ltB, h]
  · cases lo <;> cases hi <;> simp [NG_LAB, ltB, h]
  · simp [NG_LINE, ltB, h]
  · cases lo <;> cases hi <;> simp [NG_LINE, ltB, h]
  · simp [NG_LAB, ltB, h]
    exact Or.inl ha

/-- Witness for C2 at a concrete in-range record: 58 inside 56~62
raises no flag. -/
theorem c2_record_ng_flags_witness :
    NG_LAB (some 56) (some 62) ⟨1, some 58, some 61, some 56, some 62⟩
      = (decide ((58 : ℚ) < 56) || decide ((62 : ℚ) < 58)) :=
  (c2_record_ng_flags 56 62 58 ⟨1, some 58, some 61, some 56, some 62⟩).1 rfl

/-- The single-coil group whose LAB channel holds the zero sentinel
while the range text parses to 56~62. -/
def c2row : Record :=
  ⟨1, some 0, none,
    (split_std (some (("56~62").data))).1,
    (split_std (some (("56~62").data))).2⟩

/-- Counterexample to C2 as stated: a zero-valued hardness measurement
does contribute an NG flag (0 < 56), and it alone makes the strict
verdict FAIL. -/
theorem c2_zero_sentinel_cex :
    NG_LAB (firstBounds [c2row]).1 (firstBounds [c2row]).2 c2row = true ∧
    qa_result [c2row] = "FAIL" := by
  decide

/-- C4 (amended).  When the first sorted row of a group carries an
invalid (unparsed) tolerance range, the NaN bounds make every
comparison false: every flag of every record is false and the group is
scored PASS; no record is withheld from scoring and no warning
collection exists in the program. -/
theorem c4_invalid_range_scored_pass (g : List Record)
    (h1 : (firstBounds g).1 = none) (h2 : (firstBounds g).2 = none) :
    qa_result g = "PASS" ∧
    ∀ fr ∈ subFlags g,
      fr.ngLab = false ∧ fr.ngLine = false ∧ fr.coilNG = false := by
  have hflag : ∀ fr ∈ subFlags g,
      fr.ngLab = false ∧ fr.ngLine = false ∧ fr.coilNG = false := by
    intro fr hfr
    unfold subFlags at hfr
    rw [List.mem_map] at hfr
    obtain ⟨r, _, rfl⟩ := hfr
    simp [NG_LAB, NG_LINE, COIL_NG, h1, h2, ltB_none_left, ltB_none_right]
  refine ⟨?_, hflag⟩
  have hz : nOut g = 0 := by
    unfold nOut
    rw [List.length_eq_zero, List.dedup_eq_nil, List.map_eq_nil_iff,
      List.filter_eq_nil_iff]
    intro fr hfr
    simp [(hflag fr hfr).2.2]
  unfold qa_result
  rw [hz]
  simp

/-- Witness for C4: a NaN-bounds group with extreme hardness values is
scored PASS. -/
theorem c4_invalid_range_witness :
    qa_result [⟨1, some 100, some 3, none, none⟩] = "PASS" ∧
    ∀ fr ∈ subFlags [⟨1, some 100, some 3, none, none⟩],
      fr.ngLab = false ∧ fr.ngLine = false ∧ fr.coilNG = false :=
  c4_invalid_range_scored_pass [⟨1, some 100, some 3, none, none⟩] rfl rfl

/-- A record whose tolerance text is the unparseable word bad. -/
def c4row : Record :=
  ⟨1, some 100, some 3,
    (split_std (some (("bad").data))).1,
    (split_std (some (("bad").data))).2⟩

/-- Counterexample to C4 as stated: the record with the invalid range
is not excluded from scoring; its group receives the verdict PASS. -/
theorem c4_scored_pass_cex :
    c4row.stdMin = none ∧ c4row.stdMax = none ∧
    qa_result [c4row] = "PASS" := by
  decide

/-! ### C10: the first sorted row supplies the bounds for the whole group -/

/-- Two records that agree on everything the classification reads:
coil number and both hardness channels; their own tolerance bounds are
left free. -/
def sameMeas (r r' : Record) : Prop :=
  r.coilNo = r'.coilNo ∧ r.hLab = r'.hLab ∧ r.hLine = r'.hLine

theorem coilLe_iff_sameMeas {a a' b b' : Record}
    (ha : sameMeas a a') (hb : sameMeas b b') : coilLe a b ↔ coilLe a' b' := by
  unfold coilLe
  rw [ha.1, hb.1]

theorem forall₂_orderedInsert {a a' : Record} {l l' : List Record}
    (ha : sameMeas a a') (h : List.Forall₂ sameMeas l l') :
    List.Forall₂ sameMeas
      (List.orderedInsert coilLe a l) (List.orderedInsert coilLe a' l') := by
  induction h with
  | nil => exact List.Forall₂.cons ha List.Forall₂.nil
  | @cons b b' t t' hb ht ih =>
    by_cases hc : coilLe a b
    · rw [List.orderedInsert, if_pos hc, List.orderedInsert,
        if_pos ((coilLe_iff_sameMeas ha hb).mp hc)]
      exact List.Forall₂.cons ha (List.Forall₂.cons hb ht)
    · rw [List.orderedInsert, if_neg hc, List.orderedInsert,
        if_neg (fun hc' => hc ((coilLe_iff_sameMeas ha hb).mpr hc'))]
      exact List.Forall₂.cons hb ih

theorem forall₂_sortByCoil {g g' : List Record}
    (h : List.Forall₂ sameMeas g g') :
    List.Forall₂ sameMeas (sortByCoil g) (sortByCoil g') := by
  induction h with
  | nil => exact List.Forall₂.nil
  | cons ha ht ih =>
    simp only [sortByCoil, List.insertionSort] at *
    exact forall₂_orderedInsert ha ih

/-- The observable content of a flagged row: coil number, the two
hardness channels, and the three flags. -/
def flagView (fr : Flagged) : ℕ × Option ℚ × Option ℚ × Bool × Bool × Bool :=
  (fr.row.coilNo, fr.row.hLab, fr.row.hLine, fr.ngLab, fr.ngLine, fr.coilNG)

theorem map_eq_of_forall₂ {α β : Type} {R : α → α → Prop} {f : α → β}
    {l l' : List α} (h : List.Forall₂ R l l')
    (hf : ∀ x y, R x y → f x = f y) : l.map f = l'.map f := by
  induction h with
  | nil => rfl
  | cons ha _ ih => simp [List.map_cons, hf _ _ ha, ih]

theorem filtmap_eq_of_view : ∀ {A B : List Flagged},
    A.map flagView = B.map flagView →
    (A.filter (fun fr => fr.coilNG)).map (fun fr => fr.row.coilNo)
      = (B.filter (fun fr => fr.coilNG)).map (fun fr => fr.row.coilNo) := by
  intro A
  induction A with
  | nil =>
    intro B h
    cases B with
    | nil => rfl
    | cons b B => simp at h
  | cons a A ih =>
    intro B h
    cases B with
    | nil => simp at h
    | cons b B =>
      simp only [List.map_cons, List.cons.injEq] at h
      obtain ⟨hv, ht⟩ := h
      unfold flagView at hv
      simp only [Prod.mk.injEq] at hv
      obtain ⟨hc, _, _, _, _, hng⟩ := hv
      rw [List.filter_cons, List.filter_cons, hng]
      cases hb : b.coilNG <;> simp [hb, ih ht, hc]

/-- C10.  Every record of a group is classified against the bounds of
the first row of the COIL_NO-sorted frame, and those bounds alone:
each flag row carries exactly the NG values computed from firstBounds,
and two groups that agree on coil numbers and hardness readings, and
on the first sorted row's bounds, receive identical flag columns and
the identical verdict, no matter how the tolerance bounds of the other
records differ. -/
theorem c10_first_row_bounds (g g' : List Record)
    (hsame : List.Forall₂ sameMeas g g')
    (hfb : firstBounds g = firstBounds g') :
    (∀ fr ∈ subFlags g,
      fr.ngLab = NG_LAB (firstBounds g).1 (firstBounds g).2 fr.row ∧
      fr.ngLine = NG_LINE (firstBounds g).1 (firstBounds g).2 fr.row ∧
      fr.coilNG = COIL_NG (firstBounds g).1 (firstBounds g).2 fr.row) ∧
    (subFlags g).map flagView = (subFlags g').map flagView ∧
    qa_result g = qa_result g' := by
  have hmap : (subFlags g).map flagView = (subFlags g').map flagView := by
    unfold subFlags
    rw [← hfb, List.map_map, List.map_map]
    exact map_eq_of_forall₂ (forall₂_sortByCoil hsame)
      (fun x y hxy => by
        simp only [Function.comp, flagView, NG_LAB, NG_LINE, COIL_NG,
          hxy.1, hxy.2.1, hxy.2.2])
  refine ⟨?_, hmap, ?_⟩
  · intro fr hfr
    unfold subFlags at hfr
    rw [List.mem_map] at hfr
    obtain ⟨r, _, rfl⟩ := hfr
    exact ⟨rfl, rfl, rfl⟩
  · unfold qa_result nOut
    rw [filtmap_eq_of_view hmap]

/-- A two-coil group with both hardness readings in range. -/
def c10g : List Record :=
  [⟨1, some 58, none, some 56, some 62⟩, ⟨2, some 58, none, some 56, some 62⟩]

/-- The same group except that the second record carries its own,
radically different tolerance bounds. -/
def c10g' : List Record :=
  [⟨1, some 58, none, some 56, some 62⟩, ⟨2, some 58, none, some 0, some 1⟩]

/-- Witness for C10: the alien bounds on the non-first record change
nothing about the verdict. -/
theorem c10_first_row_bounds_witness : qa_result c10g = qa_result c10g' :=
  (c10_first_row_bounds c10g c10g'
    (List.Forall₂.cons ⟨rfl, rfl, rfl⟩
      (List.Forall₂.cons ⟨rfl, rfl, rfl⟩ List.Forall₂.nil))
    (by decide)).2.2

/-! ### C6: what feeds charts and statistics versus the raw table -/

theorem ltB_zero_iff (y : Option ℚ) :
    ltB (some 0) y = true ↔ ∃ x, y = some x ∧ 0 < x := by
  cases y with
  | none => simp [ltB]
  | some x => simp [ltB]

/-- C6.  A row reaches the trend and distribution data of a channel
exactly when its measurement is present and strictly positive; a value
feeds the channel statistics exactly when some row holds it present
and positive; and the data-table view keeps every row of the group,
zeros and NaN included. -/
theorem c6_measurement_filter (g : List Record) (r : Record) (q : ℚ) :
    (r ∈ lab_df g ↔ r ∈ g ∧ ∃ x, r.hLab = some x ∧ 0 < x) ∧
    (r ∈ line_df g ↔ r ∈ g ∧ ∃ x, r.hLine = some x ∧ 0 < x) ∧
    (q ∈ labVals g ↔ ∃ s ∈ g, s.hLab = some q ∧ 0 < q) ∧
    (r ∈ dataTableRows g ↔ r ∈ g) := by
  have hsort : ∀ s : Record, s ∈ sortByCoil g ↔ s ∈ g := by
    intro s
    exact (List.perm_insertionSort coilLe g).mem_iff
  refine ⟨?_, ?_, ?_, hsort r⟩
  · rw [lab_df, List.mem_filter, hsort, plotLabB, ltB_zero_iff]
  · rw [line_df, List.mem_filter, hsort, plotLineB, ltB_zero_iff]
  · rw [labVals, List.mem_filterMap]
    constructor
    · rintro ⟨s, hs, hv⟩
      rw [lab_df, List.mem_filter, hsort, plotLabB, ltB_zero_iff] at hs
      obtain ⟨hsg, x, hx, hpos⟩ := hs
      refine ⟨s, hsg, hv, ?_⟩
      rw [hx] at hv
      cases hv
      exact hpos
    · rintro ⟨s, hsg, hv, hpos⟩
      refine ⟨s, ?_, hv⟩
      rw [lab_df, List.mem_filter, hsort, plotLabB, ltB_zero_iff]
      exact ⟨hsg, q, hv, hpos⟩

/-! ### C8: the normal-overlay guard -/

theorem sampleVar_length {xs : List ℚ} {v : ℚ}
    (h : sampleVar xs = some v) : 2 ≤ xs.length := by
  unfold sampleVar at h
  by_cases hl : 2 ≤ xs.length
  · exact hl
  · rw [if_neg hl] at h
    cases h

/-- C8.  The normal overlay of a channel is produced exactly under the
guard std > 0: when it is present the filtered sample has at least two
values and the sample variance is a number, strictly positive, hence
nonzero, so the density denominator std times sqrt of two pi cannot be
zero; when the variance is NaN (fewer than two values) or not positive
the overlay is simply absent. -/
theorem c8_overlay_guard (g : List Record) :
    ((overlayLab g).isSome = true →
      2 ≤ (labVals g).length ∧
      ∃ v, sampleVar (labVals g) = some v ∧ 0 < v ∧ v ≠ 0) ∧
    ((overlayLine g).isSome = true →
      2 ≤ (lineVals g).length ∧
      ∃ v, sampleVar (lineVals g) = some v ∧ 0 < v ∧ v ≠ 0) ∧
    (sampleVar (labVals g) = none → overlayLab g = none) ∧
    (∀ v, sampleVar (labVals g) = some v → ¬ 0 < v → overlayLab g = none) := by
  refine ⟨fun h => ?_, fun h => ?_, fun h => ?_, fun v hv hnp => ?_⟩
  · unfold overlayLab at h
    cases hsv : sampleVar (labVals g) with
    | none => rw [hsv] at h; cases h
    | some v =>
      rw [hsv] at h
      dsimp only at h
      by_cases hp : 0 < v
      · exact ⟨sampleVar_length hsv, v, rfl, hp, ne_of_gt hp⟩
      · rw [if_neg hp] at h; cases h
  · unfold overlayLine at h
    cases hsv : sampleVar (lineVals g) with
    | none => rw [hsv] at h; cases h
    | some v =>
      rw [hsv] at h
      dsimp only at h
      by_cases hp : 0 < v
      · exact ⟨sampleVar_length hsv, v, rfl, hp, ne_of_gt hp⟩
      · rw [if_neg hp] at h; cases h
  · unfold overlayLab
    rw [h]
  · unfold overlayLab
    rw [hv]
    dsimp only
    rw [if_neg hnp]

/-- A two-coil group with distinct positive LAB readings. -/
def c8g : List Record :=
  [⟨1, some 57, some 57, some 56, some 62⟩,
   ⟨2, some 58, some 59, some 56, some 62⟩]

/-- Witness for C8: on a concrete two-value sample the overlay is
present and the theorem yields the positive variance. -/
theorem c8_overlay_guard_witness :
    2 ≤ (labVals c8g).length ∧
    ∃ v, sampleVar (labVals c8g) = some v ∧ 0 < v ∧ v ≠ 0 :=
  (c8_overlay_guard c8g).1 (by
    have h1 : labVals c8g = [57, 58] := by decide
    have h2 : sampleVar [(57 : ℚ), 58] = some (1 / 2) := by
      unfold sampleVar mean
      norm_num
    rw [overlayLab, h1, h2]
    dsimp only
    rw [if_pos (by norm_num : (0 : ℚ) < 1 / 2)]
    rfl)

/-! ### C3: what split_std accepts and returns -/

/-- The character list of an unsigned decimal numeral: integer digits
followed, when the fraction is nonempty, by a point and the fraction
digits.  This is exactly the number grammar of the claim. -/
def decChars (ds fs : List Char) : List Char :=
  ds ++ (if fs.isEmpty then [] else '.' :: fs)

/-- The rational value of that numeral. -/
def decVal (ds fs : List Char) : ℚ :=
  mkRat (digitsVal (ds ++ fs) : ℤ) (10 ^ fs.length)

theorem dropWhile_eq_self_of_none {p : Char → Bool} {l : List Char}
    (h : ∀ c ∈ l, p c = false) : l.dropWhile p = l := by
  cases l with
  | nil => rfl
  | cons a t =>
    rw [List.dropWhile_cons, h a (List.mem_cons_self a t)]
    simp

theorem takeWhile_append_all {p : Char → Bool} {l₁ l₂ : List Char}
    (h : ∀ c ∈ l₁, p c = true) :
    (l₁ ++ l₂).takeWhile p = l₁ ++ l₂.takeWhile p := by
  induction l₁ with
  | nil => rfl
  | cons a t ih =>
    rw [List.cons_append, List.takeWhile_cons, h a (List.mem_cons_self a t)]
    simp [ih (fun c hc => h c (List.mem_cons_of_mem a hc))]

theorem dropWhile_append_all {p : Char → Bool} {l₁ l₂ : List Char}
    (h : ∀ c ∈ l₁, p c = true) :
    (l₁ ++ l₂).dropWhile p = l₂.dropWhile p := by
  induction l₁ with
  | nil => rfl
  | cons a t ih =>
    rw [List.cons_append, List.dropWhile_cons, h a (List.mem_cons_self a t)]
    simp [ih (fun c hc => h c (List.mem_cons_of_mem a hc))]

theorem digit_ne {c d : Char} (h : isDigitC c = true)
    (hd : isDigitC d = false) : c ≠ d := by
  intro e
  rw [e, hd] at h
  cases h

theorem digit_not_space {c : Char} (h : isDigitC c = true) :
    isPySpace c = false := by
  have h' := h
  rw [isDigitC, Bool.and_eq_true] at h'
  have h1' : '0' ≤ c := of_decide_eq_true h'.1
  cases hsp : isPySpace c
  · rfl
  · exfalso
    unfold isPySpace at hsp
    simp only [Bool.or_eq_true, decide_eq_true_eq] at hsp
    rcases hsp with ((((rfl | rfl) | rfl) | rfl) | rfl) | rfl <;>
      exact absurd h1' (by decide)

theorem decChars_no_space {ds fs : List Char}
    (h1 : ∀ c ∈ ds, isDigitC c = true) (h2 : ∀ c ∈ fs, isDigitC c = true) :
    ∀ c ∈ decChars ds fs, isPySpace c = false := by
  intro c hc
  unfold decChars at hc
  rcases List.mem_append.mp hc with hm | hm
  · exact digit_not_space (h1 c hm)
  · rcases fs with _ | ⟨f, fs₀⟩
    · cases hm
    · simp only [List.isEmpty_cons] at hm
      rcases List.mem_cons.mp hm with rfl | hm
      · decide
      · exact digit_not_space (h2 c hm)

theorem decChars_no_tilde {ds fs : List Char}
    (h1 : ∀ c ∈ ds, isDigitC c = true) (h2 : ∀ c ∈ fs, isDigitC c = true) :
    '~' ∉ decChars ds fs := by
  intro hc
  unfold decChars at hc
  rcases List.mem_append.mp hc with hm | hm
  · exact absurd (h1 _ hm) (by decide)
  · rcases fs with _ | ⟨f, fs₀⟩
    · cases hm
    · simp only [List.isEmpty_cons] at hm
      rcases List.mem_cons.mp hm with e | hm
      · cases e
      · exact absurd (h2 _ hm) (by decide)

theorem splitTilde_of_not_mem {a : List Char} (h : '~' ∉ a) :
    splitTilde a = [a] := by
  induction a with
  | nil => rfl
  | cons c t ih =>
    have hc : ¬(c = '~') := fun e => h (e ▸ List.mem_cons_self c t)
    have ht : '~' ∉ t := fun m => h (List.mem_cons_of_mem c m)
    rw [splitTilde, if_neg hc, ih ht]

theorem splitTilde_append {a b : List Char} (h : '~' ∉ a) :
    splitTilde (a ++ '~' :: b) = a :: splitTilde b := by
  induction a with
  | nil => rw [List.nil_append, splitTilde, if_pos rfl]
  | cons c t ih =>
    have hc : ¬(c = '~') := fun e => h (e ▸ List.mem_cons_self c t)
    have ht : '~' ∉ t := fun m => h (List.mem_cons_of_mem c m)
    rw [List.cons_append, splitTilde, if_neg hc, ih ht]

theorem pyFloatCore_decChars (ds fs : List Char) (hds : ds ≠ [])
    (h1 : ∀ c ∈ ds, isDigitC c = true) (h2 : ∀ c ∈ fs, isDigitC c = true) :
    pyFloatCore (decChars ds fs) = some (decVal ds fs) := by
  obtain ⟨d, ds₀, rfl⟩ := List.exists_cons_of_ne_nil hds
  have hd := h1 d (List.mem_cons_self d ds₀)
  have hdm : ¬(d = '-') := digit_ne hd (by decide)
  have hdp : ¬(d = '+') := digit_ne hd (by decide)
  have hdot : isDigitC '.' = false := rfl
  rcases fs with _ | ⟨f, fs₀⟩
  · have hle : decChars (d :: ds₀) [] = d :: ds₀ := by
      simp [decChars]
    have htw : (d :: ds₀).takeWhile isDigitC = d :: ds₀ :=
      List.takeWhile_eq_self_iff.mpr h1
    have hdw : (d :: ds₀).dropWhile isDigitC = [] :=
      List.dropWhile_eq_nil_iff.mpr h1
    rw [hle]
    simp [pyFloatCore, hdm, hdp, htw, hdw, decVal, decChars]
  · have hle : decChars (d :: ds₀) (f :: fs₀)
        = (d :: ds₀) ++ '.' :: f :: fs₀ := by
      simp [decChars]
    have htw : (d :: (ds₀ ++ '.' :: f :: fs₀)).takeWhile isDigitC
        = d :: ds₀ := by
      rw [← List.cons_append, takeWhile_append_all h1, List.takeWhile_cons,
        hdot]
      simp
    have hdw : (d :: (ds₀ ++ '.' :: f :: fs₀)).dropWhile isDigitC
        = '.' :: f :: fs₀ := by
      rw [← List.cons_append, dropWhile_append_all h1, List.dropWhile_cons,
        hdot]
      simp
    have hfw : (f :: fs₀).takeWhile isDigitC = f :: fs₀ :=
      List.takeWhile_eq_self_iff.mpr h2
    have hfd : (f :: fs₀).dropWhile isDigitC = [] :=
      List.dropWhile_eq_nil_iff.mpr h2
    rw [hle]
    simp [pyFloatCore, hdm, hdp, htw, hdw, hfw, hfd, decVal]

/-- Restatement of pyFloat_decChars for numerals surrounded by
whitespace: the stripping step of pyFloat removes exactly the pads and
the core parser sees the bare numeral. -/
theorem pyFloat_padded (ds fs w1 w2 : List Char) (hds : ds ≠ [])
    (h1 : ∀ c ∈ ds, isDigitC c = true) (h2 : ∀ c ∈ fs, isDigitC c = true)
    (hw1 : ∀ c ∈ w1, isPySpace c = true) (hw2 : ∀ c ∈ w2, isPySpace c = true) :
    pyFloat (w1 ++ decChars ds fs ++ w2) = some (decVal ds fs) := by
  have hsp := decChars_no_space h1 h2
  have hbody : decChars ds fs ≠ [] := by
    obtain ⟨d, ds₀, rfl⟩ := List.exists_cons_of_ne_nil hds
    simp [decChars]
  obtain ⟨d, t, hde⟩ := List.exists_cons_of_ne_nil hbody
  have hdns : isPySpace d = false := hsp d (hde ▸ List.mem_cons_self d t)
  have hstep1 : (w1 ++ decChars ds fs ++ w2).dropWhile isPySpace
      = decChars ds fs ++ w2 := by
    rw [List.append_assoc, dropWhile_append_all hw1, hde, List.cons_append,
      List.dropWhile_cons, hdns]
    simp
  have hstep2 : ((decChars ds fs ++ w2).reverse.dropWhile isPySpace).reverse
      = decChars ds fs := by
    rw [List.reverse_append, dropWhile_append_all
        (fun c hc => hw2 c (List.mem_reverse.mp hc)),
      dropWhile_eq_self_of_none
        (fun c hc => hsp c (List.mem_reverse.mp hc)),
      List.reverse_reverse]
  rw [pyFloat, hstep1, hstep2]
  exact pyFloatCore_decChars ds fs hds h1 h2

/-- Whitespace pads around a tilde-free body contain no tilde either. -/
theorem pad_no_tilde {w1 w2 body : List Char}
    (hw1 : ∀ c ∈ w1, isPySpace c = true) (hw2 : ∀ c ∈ w2, isPySpace c = true)
    (hb : '~' ∉ body) : '~' ∉ w1 ++ body ++ w2 := by
  intro hm
  rcases List.mem_append.mp hm with hm1 | hm1
  · rcases List.mem_append.mp hm1 with hm2 | hm2
    · exact absurd (hw1 _ hm2) (by decide)
    · exact hb hm2
  · exact absurd (hw2 _ hm1) (by decide)

/-- C3 (amended).  Every unsigned-decimal pair joined by a single
tilde, each numeral optionally surrounded by whitespace, parses to
exactly its two values; the absent input, the empty string, a wrong
separator and a non-numeric word all give the NaN pair; but rejection
does not extend to every non-matching string: the two pieces are
accepted by the Python float conversion, so signed (and exponent)
numerals parse as well, as the final conjunct and the counterexample
show. -/
theorem c3_split_std (ds fs ds2 fs2 w1 w2 w3 w4 : List Char)
    (hds : ds ≠ []) (h1 : ∀ c ∈ ds, isDigitC c = true)
    (h2 : ∀ c ∈ fs, isDigitC c = true)
    (hds2 : ds2 ≠ []) (h3 : ∀ c ∈ ds2, isDigitC c = true)
    (h4 : ∀ c ∈ fs2, isDigitC c = true)
    (hw1 : ∀ c ∈ w1, isPySpace c = true) (hw2 : ∀ c ∈ w2, isPySpace c = true)
    (hw3 : ∀ c ∈ w3, isPySpace c = true) (hw4 : ∀ c ∈ w4, isPySpace c = true) :
    split_std (some ((w1 ++ decChars ds fs ++ w2)
        ++ '~' :: (w3 ++ decChars ds2 fs2 ++ w4)))
      = (some (decVal ds fs), some (decVal ds2 fs2)) ∧
    split_std none = (none, none) ∧
    split_std (some []) = (none, none) ∧
    split_std (some (("56-62").data)) = (none, none) ∧
    split_std (some (("abc").data)) = (none, none) ∧
    split_std (some (("-5~10").data)) = (some (-5), some 10) := by
  refine ⟨?_, by decide, by decide, by decide, by decide, by decide⟩
  have hL : '~' ∉ w1 ++ decChars ds fs ++ w2 :=
    pad_no_tilde hw1 hw2 (decChars_no_tilde h1 h2)
  have hR : '~' ∉ w3 ++ decChars ds2 fs2 ++ w4 :=
    pad_no_tilde hw3 hw4 (decChars_no_tilde h3 h4)
  have hmem : '~' ∈ (w1 ++ decChars ds fs ++ w2)
      ++ '~' :: (w3 ++ decChars ds2 fs2 ++ w4) :=
    List.mem_append.mpr (Or.inr (List.mem_cons_self _ _))
  have hsplit : splitTilde ((w1 ++ decChars ds fs ++ w2)
      ++ '~' :: (w3 ++ decChars ds2 fs2 ++ w4))
      = [w1 ++ decChars ds fs ++ w2, w3 ++ decChars ds2 fs2 ++ w4] := by
    rw [splitTilde_append hL, splitTilde_of_not_mem hR]
  rw [split_std, if_pos hmem, hsplit]
  dsimp only
  rw [pyFloat_padded ds fs w1 w2 hds h1 h2 hw1 hw2,
    pyFloat_padded ds2 fs2 w3 w4 hds2 h3 h4 hw3 hw4]

/-- Witness for C3 at the concrete whitespace-padded range text,
namely one space around each of the numerals 56 and 62: both pieces
parse to their values. -/
theorem c3_split_std_witness :
    split_std (some (([' '] ++ decChars (("56").data) [] ++ [' '])
        ++ '~' :: ([' '] ++ decChars (("62").data) [] ++ [' '])))
      = (some (decVal (("56").data) []), some (decVal (("62").data) [])) :=
  (c3_split_std (("56").data) [] (("62").data) [] [' '] [' '] [' '] [' ']
    (by decide) (by decide) (by decide) (by decide) (by decide) (by decide)
    (by decide) (by decide) (by decide) (by decide)).1

/-- Counterexample to C3 as stated: the signed string -5~10 is not of
the unsigned grammar, so the claim requires the NaN pair, yet the code
parses it to the values -5 and 10. -/
theorem c3_signed_accepted_cex :
    split_std (some (("-5~10").data)) = (some (-5), some 10) ∧
    (some (-5 : ℚ), some (10 : ℚ)) ≠ ((none : Option ℚ), (none : Option ℚ)) := by
  decide

/-! ### C5 and C7: group gating and presentation order -/

theorem mem_valid_conditions (df : List KRow) (k : GroupKey) :
    k ∈ valid_conditions df ↔ k ∈ df.map groupKey ∧ 30 ≤ nCoils df k := by
  unfold valid_conditions countKeys
  rw [List.mem_filter, (List.perm_insertionSort _ _).mem_iff,
    List.mem_dedup, decide_eq_true_eq]

/-- C5 (amended).  A group whose distinct-coil count is below 30 is
excluded from valid_conditions, and with it from every view the main
loop renders: the trend and distribution charts but also the raw
data-table view; no per-group size report for it exists. -/
theorem c5_small_group_everywhere_hidden (df : List KRow) (k : GroupKey)
    (h : nCoils df k < 30) : k ∉ valid_conditions df := by
  intro hmem
  exact absurd ((mem_valid_conditions df k).mp hmem).2 (by omega)

/-- A table with a single group of two coils. -/
def dfSmall : List KRow :=
  [⟨("A").data, ("M").data, ("Z").data, 1, 1, 1⟩,
   ⟨("A").data, ("M").data, ("Z").data, 1, 1, 2⟩]

/-- Witness for C5: the two-coil group is not presented. -/
theorem c5_small_group_witness :
    groupKey ⟨("A").data, ("M").data, ("Z").data, 1, 1, 1⟩
      ∉ valid_conditions dfSmall :=
  c5_small_group_everywhere_hidden dfSmall _ (by decide)

/-- Counterexample to C5 as stated: the undersized group is absent
from the presentation list entirely, although the table is nonempty,
so the raw data-table view shows nothing at all for it. -/
theorem c5_raw_table_cex :
    valid_conditions dfSmall = [] ∧ dfSmall.map groupKey ≠ [] :=
  ⟨by decide, by decide⟩

/-- C7 (amended).  The presentation sequence is deterministic, sorted
ascending in the lexicographic order of the key tuple, lists each
qualifying key exactly once, and contains exactly the keys of the
table holding at least 30 distinct coils; the coil count plays no role
in the order. -/
theorem c7_presentation_order (df : List KRow) :
    List.Sorted (fun a b : GroupKey => a ≤ b) (valid_conditions df) ∧
    (valid_conditions df).Nodup ∧
    ∀ k, k ∈ valid_conditions df ↔ k ∈ df.map groupKey ∧ 30 ≤ nCoils df k := by
  refine ⟨?_, ?_, mem_valid_conditions df⟩
  · exact List.Pairwise.sublist (List.filter_sublist _)
      (List.sorted_insertionSort _ _)
  · exact List.Nodup.filter _
      ((List.perm_insertionSort _ _).nodup_iff.mpr (List.nodup_dedup _))

/-- The first presented key of the counterexample table: 30 coils. -/
def kA : GroupKey :=
  toLex (("A").data, toLex (("M").data,
    toLex (("Z").data, toLex ((1 : ℚ), (1 : ℚ)))))

/-- The second presented key: 40 coils. -/
def kB : GroupKey :=
  toLex (("B").data, toLex (("M").data,
    toLex (("Z").data, toLex ((1 : ℚ), (1 : ℚ)))))

/-- A table with two qualifying groups: A with 30 coils and B with 40. -/
def dfEx : List KRow :=
  (List.range 30).map (fun i => ⟨("A").data, ("M").data, ("Z").data, 1, 1, i⟩) ++
  (List.range 40).map (fun i => ⟨("B").data, ("M").data, ("Z").data, 1, 1, i⟩)

/-- Counterexample to C7 as stated: group B holds more coils, so the
claimed descending-by-NumCoils order lists B first, but the code
presents A first (ascending key order). -/
theorem c7_order_cex :
    nCoils dfEx kA = 30 ∧ nCoils dfEx kB = 40 ∧
    valid_conditions dfEx = [kA, kB] ∧
    specClaimedOrder dfEx = [kB, kA] ∧
    ([kA, kB] : List GroupKey) ≠ [kB, kA] :=
  ⟨by decide, by decide, by decide, by decide, by decide⟩

/-! ### C9: what is written into the raw table -/

theorem indexOf?_none_of_not_mem {l : List (List Char)} {c : List Char}
    (h : c ∉ l) : l.indexOf? c = none :=
  List.indexOf?_eq_none_iff.mpr
    (fun _x hx hbeq => h ((eq_of_beq hbeq) ▸ hx))

theorem indexOf?_get? : ∀ {l : List (List Char)} {c : List Char} {j : ℕ},
    l.indexOf? c = some j → l.get? j = some c := by
  intro l
  induction l with
  | nil => intro c j h; cases h
  | cons a t ih =>
    intro c j h
    rw [List.indexOf?_cons] at h
    by_cases hac : a == c
    · rw [if_pos hac] at h
      cases h
      rw [List.get?_cons_zero, eq_of_beq hac]
    · rw [if_neg hac] at h
      obtain ⟨j', hj', rfl⟩ := Option.map_eq_some'.mp h
      rw [List.get?_cons_succ]
      exact ih hj'

theorem mem_eraseIdx_of_get?_ne {α : Type} :
    ∀ {l : List α} {j : ℕ} {d : α},
    d ∈ l → l.get? j ≠ some d → d ∈ l.eraseIdx j := by
  intro l
  induction l with
  | nil => intro j d h; cases h
  | cons a t ih =>
    intro j d hmem hne
    cases j with
    | zero =>
      rcases List.mem_cons.mp hmem with rfl | hmem
      · exact absurd (List.get?_cons_zero) hne
      · exact hmem
    | succ j =>
      rcases List.mem_cons.mp hmem with rfl | hmem
      · exact List.mem_cons_self _ _
      · exact List.mem_cons_of_mem a
          (ih hmem (fun e => hne ((List.get?_cons_succ).symm ▸ e)))

theorem mem_assignCol_of_mem {t : Table} {c d : List Char}
    {f : List Cell → Cell} (h : d ∈ t.cols) : d ∈ (assignCol t c f).cols := by
  unfold assignCol
  cases t.cols.indexOf? c with
  | none => exact List.mem_append_left _ h
  | some j => exact h

theorem assignCol_mem_self (t : Table) (c : List Char)
    (f : List Cell → Cell) : c ∈ (assignCol t c f).cols := by
  unfold assignCol
  cases hj : t.cols.indexOf? c with
  | none => exact List.mem_append_right _ (List.mem_cons_self c [])
  | some j => exact List.get?_mem (indexOf?_get? hj)

theorem mem_dropCol_of_ne {t : Table} {c d : List Char}
    (hmem : d ∈ t.cols) (hne : d ≠ c) : d ∈ (dropCol t c).cols := by
  unfold dropCol
  cases hj : t.cols.indexOf? c with
  | none => exact hmem
  | some j =>
    exact mem_eraseIdx_of_get?_ne hmem
      (fun e => hne (by rw [indexOf?_get? hj] at e; exact (Option.some.injEq _ _).mp e |>.symm ▸ rfl))

theorem mem_numericStep_of_mem {t : Table} {d : List Char}
    (h : d ∈ t.cols) : d ∈ (numericStep t).cols := by
  unfold numericStep
  generalize [("Hardness_LAB").data, ("Hardness_LINE").data,
    ("YS").data, ("TS").data, ("EL").data] = cs
  induction cs generalizing t with
  | nil => exact h
  | cons c cs ih => exact ih (mem_assignCol_of_mem h)

/-- C9 (amended).  The loaded raw table is mutated exactly once: line
65 appends the Metallic_Type column, a copy of the metallic-coating
column, so the table afterwards differs from the loaded one by exactly
that one appended name; the derived QA fields (parsed bounds and NG
flag columns) never appear among its columns, while the derived frame
df does carry the parsed bounds.  The copy held by the st.cache_data
cache is not touched at all, because the cache returns a fresh copy on
every access. -/
theorem c9_raw_written_once (raw0 : Table)
    (hmc : (findMetalCol raw0).isSome = true)
    (hmt : ("Metallic_Type").data ∉ raw0.cols) :
    (rawFinal raw0).cols = raw0.cols ++ [("Metallic_Type").data] ∧
    (∀ d ∈ [("Std_Min").data, ("Std_Max").data, ("NG_LAB").data,
        ("NG_LINE").data, ("COIL_NG").data],
      d ∉ raw0.cols → d ∉ (rawFinal raw0).cols) ∧
    ("Std_Min").data ∈ (dfFinal raw0).cols ∧
    ("Std_Max").data ∈ (dfFinal raw0).cols := by
  obtain ⟨c0, hc0⟩ := Option.isSome_iff_exists.mp hmc
  have hcols : (rawFinal raw0).cols = raw0.cols ++ [("Metallic_Type").data] := by
    unfold rawFinal metallicStep
    rw [hc0]
    unfold assignCol
    rw [indexOf?_none_of_not_mem hmt]
  have hmin : ("Std_Min").data ∈ (stdSplitStep (renameStep (rawFinal raw0))).cols := by
    unfold stdSplitStep
    exact mem_dropCol_of_ne
      (mem_assignCol_of_mem (assignCol_mem_self _ _ _)) (by decide)
  have hmax : ("Std_Max").data ∈ (stdSplitStep (renameStep (rawFinal raw0))).cols := by
    unfold stdSplitStep
    exact mem_dropCol_of_ne (assignCol_mem_self _ _ _) (by decide)
  refine ⟨hcols, ?_, mem_numericStep_of_mem hmin, mem_numericStep_of_mem hmax⟩
  intro d hd hdn hmem
  rw [hcols] at hmem
  rcases List.mem_append.mp hmem with hm | hm
  · exact hdn hm
  · have : d = ("Metallic_Type").data := List.mem_singleton.mp hm
    subst this
    simp only [List.mem_cons, List.mem_singleton] at hd
    rcases hd with e | e | e | e | e
    · exact absurd e (by decide)
    · exact absurd e (by decide)
    · exact absurd e (by decide)
    · exact absurd e (by decide)
    · rcases e with e | e
      · exact absurd e (by decide)
      · cases e

/-- A one-column, one-row raw table carrying only the metallic-coating
column. -/
def rawC : Table :=
  ⟨[("METALLIC COATING TYPE").data], [[Cell.cstr (("Z").data)]]⟩

/-- Witness for C9: on the concrete table the run appends exactly the
Metallic_Type column to raw. -/
theorem c9_raw_written_once_witness :
    (rawFinal rawC).cols = rawC.cols ++ [("Metallic_Type").data] :=
  (c9_raw_written_once rawC (by decide) (by decide)).1

/-- Counterexample to C9 as stated: the raw table is not left
untouched; after line 65 it differs from the loaded table. -/
theorem c9_raw_mutated_cex : rawFinal rawC ≠ rawC := by
  decide

end DashApp
